import Mathlib

/-!
Verification of the IBMOLS multi-objective knapsack core (`mokp_core.c`, with the
duplicated variant in `knapsack_core.c`).

Shallow embedding conventions:
* C `double` values (capacities, objective totals, used capacities, scalarized
  values, fitness) are modelled as `ℚ`; C `int` data (weights, profits) as `ℤ`,
  coerced into `ℚ` where the C code mixes them in double arithmetic.
* The global arrays `capacities`, `weights`, `profits` together with the global
  counts `nf`, `ni` form the `Problem` record, passed explicitly.
* An `ind` is the `Ind` record below; arrays become functions out of `ℕ`
  (C arrays are fixed-size globals, so total functions model them directly).
* Loops that do not mutate the state they test are embedded by their final
  value; mutating loops become folds over `List.range`, matching the source's
  iteration order.
-/

/-- The immutable problem data: `nf`, `ni`, `capacities`, `weights`, `profits`
from `mokp_core.c`. -/
structure Problem where
  nf : ℕ
  ni : ℕ
  capacities : ℕ → ℚ
  weights : ℕ → ℕ → ℤ
  profits : ℕ → ℕ → ℤ

/-- The `ind` struct: objective totals `f`, used capacities `capa`, scalarized
values `v`, decision order `d`, inclusion vector `Items`, the counters and
bookkeeping fields. -/
structure Ind where
  f : ℕ → ℚ
  capa : ℕ → ℚ
  v : ℕ → ℚ
  d : ℕ → ℕ
  Items : ℕ → ℕ
  nombr : ℤ
  nombr_nonpris : ℤ
  rank : ℤ
  fitness : ℚ
  fitnessbest : ℚ
  explored : Bool

/-- An all-zero individual, used as the `getD` default for list indexing. -/
def dummyInd : Ind :=
  { f := fun _ => 0, capa := fun _ => 0, v := fun _ => 0, d := fun j => j,
    Items := fun _ => 0, nombr := 0, nombr_nonpris := 0, rank := 0,
    fitness := 0, fitnessbest := 0, explored := false }

/-- The feasibility do-while in `evaluate` (`mokp_core.c` lines 276-280):
`do { if (x->capa[l] + weights[l][item] > capacities[l]) faisable = 0; l++; }
while ((l < nf) && (faisable == 1));`.  The body runs once unconditionally at
`l = 0`, and the loop mutates nothing it tests, so its final value is the
conjunction of the forced `l = 0` check with the checks for all `l < nf`. -/
def itemFeasible (pb : Problem) (capa : ℕ → ℚ) (it : ℕ) : Bool :=
  decide (capa 0 + (pb.weights 0 it : ℚ) ≤ pb.capacities 0) &&
  decide (∀ l : ℕ, l < pb.nf → capa l + (pb.weights l it : ℚ) ≤ pb.capacities l)

/-- One iteration of the main `for (j = 0; j < ni; j++)` loop of `evaluate`,
processing the item `it = x->d[j]`: on success add weights and profits for every
objective, set `Items[it] = 1` and increment `nombr`; otherwise increment
`nombr_nonpris`. -/
def evalStep (pb : Problem) (x : Ind) (it : ℕ) : Ind :=
  if itemFeasible pb x.capa it then
    { x with
      capa := fun k => if k < pb.nf then x.capa k + (pb.weights k it : ℚ) else x.capa k,
      f := fun k => if k < pb.nf then x.f k + (pb.profits k it : ℚ) else x.f k,
      Items := Function.update x.Items it 1,
      nombr := x.nombr + 1 }
  else
    { x with nombr_nonpris := x.nombr_nonpris + 1 }

/-- The reset prologue of `evaluate`: zero the counters, zero `capa[j]` and
`f[j]` for `j < nf`, zero `Items[j]` for `j < ni`. -/
def evalReset (pb : Problem) (x : Ind) : Ind :=
  { x with
    nombr := 0, nombr_nonpris := 0,
    capa := fun k => if k < pb.nf then 0 else x.capa k,
    f := fun k => if k < pb.nf then 0 else x.f k,
    Items := fun t => if t < pb.ni then 0 else x.Items t }

/-- `evaluate` from `mokp_core.c` lines 258-293: reset, then walk `x->d` in
sequence applying the feasibility-checked commit. -/
def evaluate (pb : Problem) (x : Ind) : Ind :=
  (List.range pb.ni).foldl (fun y j => evalStep pb y (x.d j)) (evalReset pb x)

/-- State of the spec-side greedy first-fit pack (spec section 4.1):
`included`, `objectiveTotals`, `capacityUsed`, `includedCount`,
`excludedCount`. -/
structure PackState where
  included : ℕ → ℕ
  objTotals : ℕ → ℚ
  capUsed : ℕ → ℚ
  includedCount : ℤ
  excludedCount : ℤ

/-- One step of the spec-side greedy pack, written from the spec's words: test
whether adding the item's weight to every objective's running `capacityUsed`
still respects `capacities`; if feasible commit the item, otherwise mark it
excluded. -/
def greedyStep (pb : Problem) (it : ℕ) (s : PackState) : PackState :=
  if ∀ k : ℕ, k < pb.nf → s.capUsed k + (pb.weights k it : ℚ) ≤ pb.capacities k then
    { included := Function.update s.included it 1,
      objTotals := fun k => if k < pb.nf then s.objTotals k + (pb.profits k it : ℚ) else s.objTotals k,
      capUsed := fun k => if k < pb.nf then s.capUsed k + (pb.weights k it : ℚ) else s.capUsed k,
      includedCount := s.includedCount + 1,
      excludedCount := s.excludedCount }
  else
    { s with excludedCount := s.excludedCount + 1 }

/-- The spec-side deterministic greedy first-fit pack of an order `d`: walk `d`
in sequence from the all-zero state.  It consumes only the problem data and the
order. -/
def greedyFirstFit (pb : Problem) (d : ℕ → ℕ) : PackState :=
  (List.range pb.ni).foldl (fun s j => greedyStep pb (d j) s)
    { included := fun _ => 0, objTotals := fun _ => 0, capUsed := fun _ => 0,
      includedCount := 0, excludedCount := 0 }

/-- `d` is a permutation of the item indices `0, ..., ni - 1`. -/
def IsPermutation (ni : ℕ) (d : ℕ → ℕ) : Prop :=
  (∀ j : ℕ, j < ni → d j < ni) ∧
  ∀ i : ℕ, i < ni → ∀ j : ℕ, j < ni → d i = d j → i = j

instance (ni : ℕ) (d : ℕ → ℕ) : Decidable (IsPermutation ni d) := by
  unfold IsPermutation; infer_instance

/-- Agreement between an evaluated individual and a spec-side pack state on the
fields the evaluator is specified to produce. -/
def agreeStates (pb : Problem) (y : Ind) (s : PackState) : Prop :=
  (∀ k : ℕ, k < pb.nf → y.capa k = s.capUsed k) ∧
  (∀ k : ℕ, k < pb.nf → y.f k = s.objTotals k) ∧
  (∀ t : ℕ, t < pb.ni → y.Items t = s.included t) ∧
  y.nombr = s.includedCount ∧ y.nombr_nonpris = s.excludedCount

lemma itemFeasible_iff_spec (pb : Problem) (hnf : 1 ≤ pb.nf) (capa capUsed : ℕ → ℚ)
    (hcapa : ∀ k : ℕ, k < pb.nf → capa k = capUsed k) (it : ℕ) :
    itemFeasible pb capa it = true ↔
      ∀ k : ℕ, k < pb.nf → capUsed k + (pb.weights k it : ℚ) ≤ pb.capacities k := by
  unfold itemFeasible
  simp only [Bool.and_eq_true, decide_eq_true_eq]
  constructor
  · rintro ⟨_, hall⟩ k hk
    rw [← hcapa k hk]
    exact hall k hk
  · intro hall
    refine ⟨?_, fun l hl => ?_⟩
    · have h0 := hall 0 hnf
      rwa [hcapa 0 hnf]
    · have hl' := hall l hl
      rwa [hcapa l hl]

lemma evalStep_agree (pb : Problem) (hnf : 1 ≤ pb.nf) (it : ℕ) (y : Ind) (s : PackState)
    (h : agreeStates pb y s) : agreeStates pb (evalStep pb y it) (greedyStep pb it s) := by
  obtain ⟨hcapa, hf, hItems, hn, hnp⟩ := h
  have hfeas := itemFeasible_iff_spec pb hnf y.capa s.capUsed hcapa it
  unfold evalStep greedyStep
  by_cases hc : ∀ k : ℕ, k < pb.nf → s.capUsed k + (pb.weights k it : ℚ) ≤ pb.capacities k
  · rw [if_pos (hfeas.mpr hc), if_pos hc]
    refine ⟨fun k hk => ?_, fun k hk => ?_, fun t ht => ?_, ?_, ?_⟩
    · simp only [if_pos hk, hcapa k hk]
    · simp only [if_pos hk, hf k hk]
    · simp only [Function.update_apply, hItems t ht]
    · simpa using hn
    · simpa using hnp
  · rw [if_neg (fun hx => hc (hfeas.mp hx)), if_neg hc]
    exact ⟨hcapa, hf, hItems, by simpa using hn, by simpa using hnp⟩

lemma foldl_agree (pb : Problem) (hnf : 1 ≤ pb.nf) (d : ℕ → ℕ) :
    ∀ (js : List ℕ) (y : Ind) (s : PackState), agreeStates pb y s →
      agreeStates pb (js.foldl (fun a j => evalStep pb a (d j)) y)
        (js.foldl (fun a j => greedyStep pb (d j) a) s) := by
  intro js
  induction js with
  | nil => intro y s h; exact h
  | cons j rest ih =>
    intro y s h
    exact ih _ _ (evalStep_agree pb hnf (d j) y s h)

lemma evalReset_agree (pb : Problem) (x : Ind) :
    agreeStates pb (evalReset pb x)
      { included := fun _ => 0, objTotals := fun _ => 0, capUsed := fun _ => 0,
        includedCount := 0, excludedCount := 0 } := by
  refine ⟨fun k hk => ?_, fun k hk => ?_, fun t ht => ?_, rfl, rfl⟩
  · simp [evalReset, if_pos hk]
  · simp [evalReset, if_pos hk]
  · simp [evalReset, if_pos ht]

/-- **C1.** For an individual whose order is a permutation of the item indices
(and a problem with at least one objective, as the spec requires 2-4),
`evaluate` computes exactly the deterministic greedy first-fit pack described
by the spec: the resulting `capa`, `f`, `Items` (on the valid index ranges) and
the two counters coincide with the pack computed from the order and the problem
data alone. -/
theorem evaluate_eq_greedyFirstFit (pb : Problem) (x : Ind) (hnf : 1 ≤ pb.nf)
    (hperm : IsPermutation pb.ni x.d) :
    agreeStates pb (evaluate pb x) (greedyFirstFit pb x.d) :=
  foldl_agree pb hnf x.d (List.range pb.ni) (evalReset pb x) _ (evalReset_agree pb x)

/-- The concrete two-objective, five-item problem from the spec's test
scenario. -/
def pb0 : Problem :=
  { nf := 2, ni := 5,
    capacities := fun k => if k = 0 then 10 else 15,
    weights := fun k i => ((if k = 0 then [2, 3, 4, 5, 1] else [1, 2, 3, 4, 2]).getD i 0 : ℤ),
    profits := fun k i => ((if k = 0 then [3, 4, 5, 6, 2] else [5, 6, 7, 8, 4]).getD i 0 : ℤ) }

/-- A blank individual whose order is the identity permutation. -/
def x0 : Ind := dummyInd

theorem evaluate_eq_greedyFirstFit_witness :
    1 ≤ pb0.nf ∧ IsPermutation pb0.ni x0.d ∧
      agreeStates pb0 (evaluate pb0 x0) (greedyFirstFit pb0 x0.d) :=
  ⟨by decide, by decide, evaluate_eq_greedyFirstFit pb0 x0 (by decide) (by decide)⟩

lemma evalStep_capa_le (pb : Problem) (it : ℕ) (y : Ind)
    (h : ∀ k : ℕ, k < pb.nf → y.capa k ≤ pb.capacities k) :
    ∀ k : ℕ, k < pb.nf → (evalStep pb y it).capa k ≤ pb.capacities k := by
  intro k hk
  unfold evalStep
  by_cases hc : itemFeasible pb y.capa it = true
  · rw [if_pos hc]
    have hall := (Bool.and_eq_true _ _).mp hc |>.2
    have hall' := of_decide_eq_true hall
    simp only [if_pos hk]
    exact hall' k hk
  · rw [if_neg hc]
    exact h k hk

lemma foldl_capa_le (pb : Problem) (d : ℕ → ℕ) :
    ∀ (js : List ℕ) (y : Ind),
      (∀ k : ℕ, k < pb.nf → y.capa k ≤ pb.capacities k) →
      ∀ k : ℕ, k < pb.nf →
        ((js.foldl (fun a j => evalStep pb a (d j)) y)).capa k ≤ pb.capacities k := by
  intro js
  induction js with
  | nil => intro y h; exact h
  | cons j rest ih =>
    intro y h
    exact ih _ (evalStep_capa_le pb (d j) y h)

/-- **C2.** For a problem with nonnegative capacities and weights and an
individual whose order is a valid permutation, immediately after `evaluate` the
used capacity respects every objective's capacity: `capa[k] ≤ capacities[k]`
for all `k < nf`. -/
theorem evaluate_capa_le_capacities (pb : Problem) (x : Ind)
    (hcap : ∀ k : ℕ, k < pb.nf → 0 ≤ pb.capacities k)
    (hw : ∀ k : ℕ, k < pb.nf → ∀ i : ℕ, i < pb.ni → 0 ≤ pb.weights k i)
    (hperm : IsPermutation pb.ni x.d) :
    ∀ k : ℕ, k < pb.nf → (evaluate pb x).capa k ≤ pb.capacities k := by
  apply foldl_capa_le
  intro k hk
  simp only [evalReset, if_pos hk]
  exact hcap k hk

theorem evaluate_capa_le_capacities_witness :
    (∀ k : ℕ, k < pb0.nf → 0 ≤ pb0.capacities k) ∧
      (∀ k : ℕ, k < pb0.nf → (evaluate pb0 x0).capa k ≤ pb0.capacities k) :=
  ⟨by decide, evaluate_capa_le_capacities pb0 x0 (by decide) (by decide) (by decide)⟩

/-- The short-circuiting loop of `dominates` (`mokp_core.c` lines 176-187):
`for (i = 0; i < nf && !a_is_worse; i++) { a_is_worse = a->f[i] > b->f[i];
equal = (a->f[i] == b->f[i]) && equal; }`, embedded over the remaining index
list with the running `(a_is_worse, equal)` pair. -/
def dominatesLoop (fa fb : ℕ → ℚ) : List ℕ → Bool × Bool → Bool × Bool
  | [], st => st
  | i :: rest, st =>
    if st.1 then st
    else dominatesLoop fa fb rest (decide (fb i < fa i), decide (fa i = fb i) && st.2)

/-- `dominates` from `mokp_core.c`: run the loop from `(false, true)` and
return `!equal && !a_is_worse`. -/
def dominates (nf : ℕ) (fa fb : ℕ → ℚ) : Bool :=
  let r := dominatesLoop fa fb (List.range nf) (false, true)
  !r.2 && !r.1

/-- The maximize-profit dominance relation required by the spec (section 4.2):
`a` at least as good as `b` on every objective and strictly better on at least
one, higher values better. -/
def maxDominates (nf : ℕ) (fa fb : ℕ → ℚ) : Prop :=
  (∀ k : ℕ, k < nf → fb k ≤ fa k) ∧ ∃ k : ℕ, k < nf ∧ fb k < fa k

instance (nf : ℕ) (fa fb : ℕ → ℚ) : Decidable (maxDominates nf fa fb) := by
  unfold maxDominates; infer_instance

lemma dominatesLoop_result (fa fb : ℕ → ℚ) :
    ∀ (l : List ℕ) (e : Bool),
      ((!(dominatesLoop fa fb l (false, e)).2 && !(dominatesLoop fa fb l (false, e)).1) = true
        ↔ (∀ i ∈ l, fa i ≤ fb i) ∧ ¬(e = true ∧ ∀ i ∈ l, fa i = fb i)) := by
  intro l
  induction l with
  | nil =>
    intro e
    cases e <;> simp [dominatesLoop]
  | cons i rest ih =>
    intro e
    by_cases hlt : fb i < fa i
    · have hworse : (decide (fb i < fa i)) = true := by simpa using hlt
      have hrun : dominatesLoop fa fb (i :: rest) (false, e)
          = dominatesLoop fa fb rest (true, decide (fa i = fb i) && e) := by
        simp [dominatesLoop, hworse]
      have hstop : dominatesLoop fa fb rest (true, decide (fa i = fb i) && e)
          = (true, decide (fa i = fb i) && e) := by
        cases rest with
        | nil => rfl
        | cons j tail => simp [dominatesLoop]
      rw [hrun, hstop]
      simp only [Bool.and_eq_true, Bool.not_eq_true']
      constructor
      · rintro ⟨_, h⟩; exact absurd h (by decide)
      · rintro ⟨hle, _⟩
        exact absurd (hle i (List.mem_cons_self i rest)) (not_le.mpr hlt)
    · have hworse : (decide (fb i < fa i)) = false := by simpa using hlt
      have hrun : dominatesLoop fa fb (i :: rest) (false, e)
          = dominatesLoop fa fb rest (false, decide (fa i = fb i) && e) := by
        simp [dominatesLoop, hworse]
      rw [hrun, ih (decide (fa i = fb i) && e)]
      have hle : fa i ≤ fb i := not_lt.mp hlt
      constructor
      · rintro ⟨hr, hne⟩
        refine ⟨fun t ht => ?_, fun hc => ?_⟩
        · rcases List.mem_cons.mp ht with h1 | h2
          · rw [h1]; exact hle
          · exact hr t h2
        · obtain ⟨he, hall⟩ := hc
          refine hne ⟨?_, fun t ht => hall t (List.mem_cons_of_mem i ht)⟩
          have hi : fa i = fb i := hall i (List.mem_cons_self i rest)
          simp [hi, he]
      · rintro ⟨hr, hne⟩
        refine ⟨fun t ht => hr t (List.mem_cons_of_mem i ht), fun hc => ?_⟩
        obtain ⟨he, hall⟩ := hc
        have hei : decide (fa i = fb i) = true ∧ e = true := by
          simpa using he
        refine hne ⟨hei.2, fun t ht => ?_⟩
        rcases List.mem_cons.mp ht with h1 | h2
        · rw [h1]; exact of_decide_eq_true hei.1
        · exact hall t h2

/-- **C5 (amended).** `dominates(a, b)` returns true iff `a->f[i] <= b->f[i]`
for every objective and the two vectors are not identical — i.e. it reports
that `b` is at least as good everywhere and strictly better somewhere under the
maximize convention (equivalently, `a` dominates `b` under a minimize
convention), the opposite orientation of `non_dominated`. -/
theorem dominates_iff_all_le_not_all_eq (nf : ℕ) (fa fb : ℕ → ℚ) :
    dominates nf fa fb = true ↔
      (∀ i : ℕ, i < nf → fa i ≤ fb i) ∧ ¬(∀ i : ℕ, i < nf → fa i = fb i) := by
  unfold dominates
  rw [dominatesLoop_result fa fb (List.range nf) true]
  simp [List.mem_range]

/-- **C5 (counterexample).** With `nf = 2`, `a->f = (1, 1)` and `b->f = (0, 0)`,
`a` strictly dominates `b` under the maximize-profit convention, yet
`dominates(a, b)` returns false: the comparator treats higher values as worse,
contradicting the claimed uniform maximize convention. -/
theorem dominates_not_maximize_counterexample :
    maxDominates 2 (fun _ => (1 : ℚ)) (fun _ => (0 : ℚ)) ∧
      dominates 2 (fun _ => (1 : ℚ)) (fun _ => (0 : ℚ)) = false := by
  constructor
  · exact ⟨fun k _ => by norm_num, 0, by norm_num⟩
  · rfl

/-- Loop body of `non_dominated` (`mokp_core.c` lines 190-201): `if (a->f[i] >
b->f[i]) a_is_good = 1; equal = (a->f[i] == b->f[i]) && equal;`. -/
def ndStep (fa fb : ℕ → ℚ) (st : ℤ × Bool) (i : ℕ) : ℤ × Bool :=
  (if fb i < fa i then 1 else st.1, decide (fa i = fb i) && st.2)

/-- `non_dominated` from `mokp_core.c`: scan all objectives accumulating
`(a_is_good, equal)` from `(-1, true)`; return 0 on identical vectors,
otherwise `a_is_good`. -/
def non_dominated (nf : ℕ) (fa fb : ℕ → ℚ) : ℤ :=
  if ((List.range nf).foldl (ndStep fa fb) (-1, true)).2 then 0
  else ((List.range nf).foldl (ndStep fa fb) (-1, true)).1

lemma ndStep_foldl (fa fb : ℕ → ℚ) :
    ∀ (l : List ℕ) (g : ℤ) (e : Bool),
      l.foldl (ndStep fa fb) (g, e)
        = (if ∃ i ∈ l, fb i < fa i then 1 else g, decide (∀ i ∈ l, fa i = fb i) && e) := by
  intro l
  induction l with
  | nil => intro g e; simp
  | cons i rest ih =>
    intro g e
    rw [List.foldl_cons]
    have hstep : ndStep fa fb (g, e) i
        = (if fb i < fa i then (1 : ℤ) else g, decide (fa i = fb i) && e) := rfl
    rw [hstep, ih]
    congr 1
    · by_cases h1 : fb i < fa i
      · simp [ndStep, h1, List.exists_mem_cons_iff]
      · by_cases h2 : ∃ t ∈ rest, fb t < fa t <;>
          simp [ndStep, h1, h2, List.exists_mem_cons_iff]
    · by_cases h1 : fa i = fb i
      · by_cases h2 : ∀ t ∈ rest, fa t = fb t <;>
          simp [ndStep, h1, h2, List.forall_mem_cons]
      · simp [ndStep, h1, List.forall_mem_cons]

lemma ndStep_foldl_range (nf : ℕ) (fa fb : ℕ → ℚ) :
    (List.range nf).foldl (ndStep fa fb) (-1, true)
      = (if ∃ i : ℕ, i < nf ∧ fb i < fa i then 1 else -1,
         decide (∀ i : ℕ, i < nf → fa i = fb i)) := by
  rw [ndStep_foldl]
  simp [List.mem_range]

lemma non_dominated_eq_zero_iff (nf : ℕ) (fa fb : ℕ → ℚ) :
    non_dominated nf fa fb = 0 ↔ ∀ i : ℕ, i < nf → fa i = fb i := by
  unfold non_dominated
  rw [ndStep_foldl_range]
  by_cases he : ∀ i : ℕ, i < nf → fa i = fb i
  · have hd : decide (∀ i : ℕ, i < nf → fa i = fb i) = true := decide_eq_true he
    rw [hd, if_pos rfl]
    exact ⟨fun _ => he, fun _ => rfl⟩
  · have hd : decide (∀ i : ℕ, i < nf → fa i = fb i) = false :=
      decide_eq_false he
    rw [hd, if_neg (by simp)]
    constructor
    · intro h
      by_cases hx : ∃ i : ℕ, i < nf ∧ fb i < fa i
      · rw [if_pos hx] at h; exact absurd h (by norm_num)
      · rw [if_neg hx] at h; exact absurd h (by norm_num)
    · intro h; exact absurd h he

lemma non_dominated_eq_neg_one_iff (nf : ℕ) (fa fb : ℕ → ℚ) :
    non_dominated nf fa fb = -1 ↔
      (∀ i : ℕ, i < nf → fa i ≤ fb i) ∧ ¬(∀ i : ℕ, i < nf → fa i = fb i) := by
  unfold non_dominated
  rw [ndStep_foldl_range]
  by_cases he : ∀ i : ℕ, i < nf → fa i = fb i
  · have hd : decide (∀ i : ℕ, i < nf → fa i = fb i) = true := decide_eq_true he
    rw [hd, if_pos rfl]
    constructor
    · intro h; exact absurd h (by norm_num)
    · rintro ⟨_, hne⟩; exact absurd he hne
  · have hd : decide (∀ i : ℕ, i < nf → fa i = fb i) = false :=
      decide_eq_false he
    rw [hd, if_neg (by simp)]
    by_cases hx : ∃ i : ℕ, i < nf ∧ fb i < fa i
    · rw [if_pos hx]
      constructor
      · intro h; exact absurd h (by norm_num)
      · rintro ⟨hall, _⟩
        obtain ⟨i, hi, hlt⟩ := hx
        exact absurd (hall i hi) (not_le.mpr hlt)
    · rw [if_neg hx]
      refine ⟨fun _ => ⟨fun i hi => ?_, he⟩, fun _ => rfl⟩
      by_contra hle
      exact hx ⟨i, hi, not_le.mp hle⟩

/-- The inner scan of `extractPtoArchive` (`mokp_core.c` lines 446-452):
element `i` of the combined pool `U` is discarded when some other `j`
dominates it (`non_dominated = -1`) or has an identical objective vector with
a smaller index (`non_dominated = 0 && i > j`). -/
def discardedIdx (nf : ℕ) (U : List Ind) (i : ℕ) : Bool :=
  (List.range U.length).any fun j =>
    decide (j ≠ i) &&
      (decide (non_dominated nf (U.getD i dummyInd).f (U.getD j dummyInd).f = -1) ||
       (decide (non_dominated nf (U.getD i dummyInd).f (U.getD j dummyInd).f = 0) &&
        decide (j < i)))

/-- `extractPtoArchive` from `mokp_core.c` lines 429-461: combine archive and
deep-copied population into `U`, rebuild the archive from the surviving
(undiscarded) elements in index order — with no capacity check — and return
the number of survivors originating from `P` (indices `>= archive->size`). -/
def extractPtoArchive_core (nf : ℕ) (P archive : List Ind) : List Ind × ℕ :=
  ((((List.range (archive ++ P).length).filter
        fun i => !discardedIdx nf (archive ++ P) i).map
      fun i => (archive ++ P).getD i dummyInd),
   (((List.range (archive ++ P).length).filter
        fun i => !discardedIdx nf (archive ++ P) i).filter
      fun i => decide (archive.length ≤ i)).length)

/-- `extractPtoArchive` from `knapsack_core.c` (duplicate variant, lines
746-762 of the concatenated sources): identical filtering, but a survivor is
inserted only while `archive->size < archive->maxsize`; overflow survivors are
silently dropped and not counted in the convergence rate. -/
def extractPtoArchive_knap (nf maxsize : ℕ) (P archive : List Ind) : List Ind × ℕ :=
  (((((List.range (archive ++ P).length).filter
        fun i => !discardedIdx nf (archive ++ P) i).take maxsize).map
      fun i => (archive ++ P).getD i dummyInd),
   ((((List.range (archive ++ P).length).filter
        fun i => !discardedIdx nf (archive ++ P) i).take maxsize).filter
      fun i => decide (archive.length ≤ i)).length)

lemma discardedIdx_eq_false (nf : ℕ) (U : List Ind) (i : ℕ)
    (h : discardedIdx nf U i = false) :
    ∀ j : ℕ, j < U.length → j ≠ i →
      non_dominated nf (U.getD i dummyInd).f (U.getD j dummyInd).f ≠ -1 ∧
      ¬(non_dominated nf (U.getD i dummyInd).f (U.getD j dummyInd).f = 0 ∧ j < i) := by
  intro j hj hne
  have hmem : j ∈ List.range U.length := List.mem_range.mpr hj
  have hfalse := List.any_eq_false.mp h j hmem
  simp only [Bool.and_eq_true, Bool.or_eq_true, decide_eq_true_eq, not_and, not_or] at hfalse
  constructor
  · intro hdom
    exact (hfalse hne).1 hdom
  · rintro ⟨hzero, hlt⟩
    exact (hfalse hne).2 hzero hlt

/-- **C3.** After any call to the `mokp_core.c` `extractPtoArchive`, the
rebuilt archive is pairwise non-dominated under the maximize-profit convention
of `non_dominated`, and no two members have identical objective vectors. -/
theorem extractPtoArchive_pairwise_nondominated (nf : ℕ) (P archive : List Ind) :
    ((extractPtoArchive_core nf P archive).1).Pairwise fun a b =>
      ¬ maxDominates nf a.f b.f ∧ ¬ maxDominates nf b.f a.f ∧
        ¬ ∀ k : ℕ, k < nf → a.f k = b.f k := by
  rw [extractPtoArchive_core]
  simp only []
  rw [List.pairwise_map]
  have hsorted : ((List.range (archive ++ P).length).filter
      fun i => !discardedIdx nf (archive ++ P) i).Pairwise (· < ·) :=
    List.Pairwise.filter _ (List.pairwise_lt_range _)
  refine List.Pairwise.imp_of_mem ?_ hsorted
  intro a b ha hb hab
  have ha' := List.mem_filter.mp ha
  have hb' := List.mem_filter.mp hb
  have haU : a < (archive ++ P).length := List.mem_range.mp ha'.1
  have hbU : b < (archive ++ P).length := List.mem_range.mp hb'.1
  have hand : discardedIdx nf (archive ++ P) a = false := by
    have := ha'.2; simpa using this
  have hbnd : discardedIdx nf (archive ++ P) b = false := by
    have := hb'.2; simpa using this
  have hA := discardedIdx_eq_false nf (archive ++ P) a hand
  have hB := discardedIdx_eq_false nf (archive ++ P) b hbnd
  refine ⟨?_, ?_, ?_⟩
  · -- U[a] does not dominate U[b]
    rintro ⟨hall, k, hk, hlt⟩
    have hdom : non_dominated nf ((archive ++ P).getD b dummyInd).f
        ((archive ++ P).getD a dummyInd).f = -1 := by
      refine (non_dominated_eq_neg_one_iff nf _ _).mpr ⟨hall, fun heq => ?_⟩
      exact absurd (heq k hk) (ne_of_lt hlt)
    exact (hB a haU (Nat.ne_of_lt hab)).1 hdom
  · -- U[b] does not dominate U[a]
    rintro ⟨hall, k, hk, hlt⟩
    have hdom : non_dominated nf ((archive ++ P).getD a dummyInd).f
        ((archive ++ P).getD b dummyInd).f = -1 := by
      refine (non_dominated_eq_neg_one_iff nf _ _).mpr ⟨hall, fun heq => ?_⟩
      exact absurd (heq k hk) (ne_of_lt hlt)
    exact (hA b hbU (Nat.ne_of_lt hab).symm).1 hdom
  · -- not identical objective vectors
    intro heq
    have hzero : non_dominated nf ((archive ++ P).getD b dummyInd).f
        ((archive ++ P).getD a dummyInd).f = 0 :=
      (non_dominated_eq_zero_iff nf _ _).mpr fun k hk => (heq k hk).symm
    exact (hB a haU (Nat.ne_of_lt hab)).2 ⟨hzero, hab⟩

/-- Concrete individual with objective vector `(1, 0)`. -/
def indA4 : Ind := { dummyInd with f := fun k => if k = 0 then 1 else 0 }

/-- Concrete individual with objective vector `(0, 1)`. -/
def indB4 : Ind := { dummyInd with f := fun k => if k = 0 then 0 else 1 }

/-- **C4 (counterexample).** The `mokp_core.c` `extractPtoArchive` appends
every survivor without consulting `archive->maxsize`: folding two mutually
incomparable individuals into an empty archive of capacity 1 yields an archive
of size 2, violating `size <= maxsize`. -/
theorem extractPtoArchive_overflows_maxsize :
    (extractPtoArchive_core 2 [indA4, indB4] []).1.length = 2 ∧
      ¬((extractPtoArchive_core 2 [indA4, indB4] []).1.length ≤ 1) := by
  constructor
  · rfl
  · decide

/-- **C4 (amended).** The `knapsack_core.c` variant satisfies the claim: after
any call its archive size is at most `maxsize`, overflow survivors being
silently dropped; the `mokp_core.c` variant performs no capacity check, so its
archive size is bounded only by the combined total `archive->size + P->size`. -/
theorem extractPtoArchive_size_bounds (nf maxsize : ℕ) (P archive : List Ind) :
    (extractPtoArchive_knap nf maxsize P archive).1.length ≤ maxsize ∧
      (extractPtoArchive_core nf P archive).1.length ≤ archive.length + P.length := by
  constructor
  · rw [extractPtoArchive_knap]
    simp only [List.length_map, List.length_take]
    exact min_le_left _ _
  · rw [extractPtoArchive_core]
    simp only [List.length_map]
    calc ((List.range (archive ++ P).length).filter
          fun i => !discardedIdx nf (archive ++ P) i).length
        ≤ (List.range (archive ++ P).length).length := List.length_filter_le _ _
      _ = (archive ++ P).length := List.length_range _
      _ = archive.length + P.length := List.length_append _ _


/-- Modelled from the spec: `calcIndicatorValue` lives in `indicators.c`, which
is absent from the sources (only its declaration appears); spec section 4.4
instantiates the indicator as the additive epsilon indicator over the
scalarized objective vectors — the minimal uniform shift making `a` at least
as good as `b` on every scalarized objective, the maximum of `b.v k - a.v k`
over the objectives (written with an explicit comparison). -/
def calcIndicatorValue (nf : ℕ) (a b : Ind) : ℚ :=
  (List.range nf).foldl
    (fun m k => if m < b.v k - a.v k then b.v k - a.v k else m)
    (b.v 0 - a.v 0)

/-- `compute_ind_fitness` from `mokp_core.c` lines 378-387: zero the fitness,
then accumulate one kernel contribution per population member in slot order.
The kernel `exp(-I / kappa)` applied by `update_fitness` is transcendental, so
it is passed as an explicit parameter `E : ℚ → ℚ` (modelled from the spec:
`E I` stands for `exp(-I / kappa)`). -/
def compute_ind_fitness (E : ℚ → ℚ) (nf : ℕ) (x : Ind) (SP : List Ind) : Ind :=
  { x with fitness := SP.foldl (fun s y => s + E (calcIndicatorValue nf y x)) 0 }

/-- The worst-member scan of `compute_fitness_and_select` (`mokp_core.c` lines
401-408): start from slot 0, keep the first strictly smaller stored fitness;
returns the slot index and its fitness. -/
def worstOf (SP : List Ind) : ℕ × ℚ :=
  ((List.range SP.length).drop 1).foldl
    (fun st i => if (SP.getD i dummyInd).fitness < st.2
      then (i, (SP.getD i dummyInd).fitness) else st)
    (0, (SP.getD 0 dummyInd).fitness)

/-- The global `smallValue` literal `0.0000001f`. -/
def smallValue : ℚ := 1 / 10000000

/-- The candidate's fitness `fit_tmp` computed at the top of
`compute_fitness_and_select`. -/
def selectFitness (E : ℚ → ℚ) (nf : ℕ) (SP : List Ind) (x : Ind) : ℚ :=
  (compute_ind_fitness E nf x SP).fitness

/-- In the accept branch the candidate receives one extra kernel contribution
(`delete_fitness(x, calcIndicatorValue(worst, x))`) before being cloned into
the worst slot. -/
def selectNewCand (E : ℚ → ℚ) (nf : ℕ) (SP : List Ind) (x : Ind) : Ind :=
  { x with
    fitness := selectFitness E nf SP x
      + E (calcIndicatorValue nf (SP.getD (worstOf SP).1 dummyInd) x) }

/-- The population produced by the accept branch of
`compute_fitness_and_select`: every slot gains the kernel contribution of the
evicted worst (`delete_fitness` performs `fitness += exp(-I/kappa)`, it does
not subtract) and of the candidate, then the worst slot is freed and replaced
by a clone of the candidate. -/
def selectNewPop (E : ℚ → ℚ) (nf : ℕ) (SP : List Ind) (x : Ind) : List Ind :=
  (SP.map fun y =>
    { y with
      fitness := y.fitness
        + E (calcIndicatorValue nf (SP.getD (worstOf SP).1 dummyInd) y)
        + E (calcIndicatorValue nf x y) }).set (worstOf SP).1 (selectNewCand E nf SP x)

/-- `compute_fitness_and_select` from `mokp_core.c` lines 396-426: compute the
candidate's fitness, find the worst member; if the candidate's fitness exceeds
the worst's, update every member's fitness, replace the worst by a clone of the
candidate, and return the slot index when the margin exceeds `smallValue`, `-1`
otherwise; if the candidate does not beat the worst, return `-1` with the
population untouched.  Returns `(result, SP afterwards, candidate
afterwards)`. -/
def compute_fitness_and_select (E : ℚ → ℚ) (nf : ℕ) (SP : List Ind) (x : Ind) :
    ℤ × List Ind × Ind :=
  if (worstOf SP).2 < selectFitness E nf SP x then
    if smallValue < selectFitness E nf SP x - (worstOf SP).2
    then (((worstOf SP).1 : ℤ), selectNewPop E nf SP x, selectNewCand E nf SP x)
    else (-1, selectNewPop E nf SP x, selectNewCand E nf SP x)
  else (-1, SP, compute_ind_fitness E nf x SP)

/-- Kernel stand-in used by counterexamples whose indicator values are all 0,
where any faithful exponential kernel takes the value `exp(0) = 1`. -/
def kernelOne : ℚ → ℚ := fun _ => 1

/-- Population member with stored fitness just below the candidate's. -/
def pC6a : Ind := { dummyInd with fitness := 2 - 1 / 1000000000 }

/-- Population member with stored fitness 3. -/
def pC6b : Ind := { dummyInd with fitness := 3 }

/-- With a single objective the additive epsilon indicator is just the
difference of the scalarized values. -/
lemma calcIndicatorValue_one (a b : Ind) : calcIndicatorValue 1 a b = b.v 0 - a.v 0 := by
  unfold calcIndicatorValue
  rw [show List.range 1 = [0] from rfl, List.foldl_cons, List.foldl_nil,
    if_neg (lt_irrefl _)]

lemma worstOf_pair (a b : Ind) (h : ¬ b.fitness < a.fitness) :
    worstOf [a, b] = (0, a.fitness) := by
  unfold worstOf
  rw [show (List.range ([a, b] : List Ind).length).drop 1 = [1] from rfl,
    List.foldl_cons, List.foldl_nil,
    show ([a, b] : List Ind).getD 1 dummyInd = b from rfl,
    show ([a, b] : List Ind).getD 0 dummyInd = a from rfl,
    if_neg (show ¬(b.fitness < ((0, a.fitness) : ℕ × ℚ).2) from h)]

lemma selectFitness_pair (E : ℚ → ℚ) (nf : ℕ) (a b x : Ind) :
    selectFitness E nf [a, b] x
      = E (calcIndicatorValue nf a x) + E (calcIndicatorValue nf b x) := by
  unfold selectFitness compute_ind_fitness
  simp [List.foldl_cons, List.foldl_nil]

lemma selectNewPop_pair (E : ℚ → ℚ) (nf : ℕ) (a b x : Ind)
    (h : worstOf [a, b] = (0, a.fitness)) :
    selectNewPop E nf [a, b] x
      = [selectNewCand E nf [a, b] x,
         { b with
           fitness := b.fitness + E (calcIndicatorValue nf a b)
             + E (calcIndicatorValue nf x b) }] := by
  unfold selectNewPop
  rw [h]
  rfl

/-- **C6 (counterexample).** All scalarized vectors are 0, so every kernel
contribution is `exp(0) = 1` and the candidate's fitness is 2; the worst
member's stored fitness is smaller by `10^-9 <= smallValue`, so the function
takes the accept branch, replaces the worst with a clone of the candidate and
adds two kernel contributions to every member's fitness — yet returns `-1`
because the margin does not exceed `smallValue`.  Slot 1's fitness changes
from 3 to 5 on a call that reports rejection. -/
theorem select_returns_reject_but_mutates :
    (compute_fitness_and_select kernelOne 1 [pC6a, pC6b] dummyInd).1 = -1 ∧
      ((compute_fitness_and_select kernelOne 1 [pC6a, pC6b] dummyInd).2.1.getD 1
          dummyInd).fitness = 5 ∧
      (([pC6a, pC6b] : List Ind).getD 1 dummyInd).fitness = 3 := by
  have hpa : pC6a.fitness = 2 - 1 / 1000000000 := rfl
  have hpb : pC6b.fitness = 3 := rfl
  have hw : worstOf [pC6a, pC6b] = (0, pC6a.fitness) := by
    apply worstOf_pair
    rw [hpa, hpb]
    norm_num
  have hfit : selectFitness kernelOne 1 [pC6a, pC6b] dummyInd = 2 := by
    rw [selectFitness_pair]
    norm_num [kernelOne]
  have hc1 : (worstOf [pC6a, pC6b]).2 < selectFitness kernelOne 1 [pC6a, pC6b] dummyInd := by
    rw [hw, hfit]
    show pC6a.fitness < 2
    rw [hpa]
    norm_num
  have hc2 : ¬(smallValue < selectFitness kernelOne 1 [pC6a, pC6b] dummyInd
      - (worstOf [pC6a, pC6b]).2) := by
    rw [hw, hfit]
    show ¬(smallValue < 2 - pC6a.fitness)
    rw [hpa]
    norm_num [smallValue]
  have hres : compute_fitness_and_select kernelOne 1 [pC6a, pC6b] dummyInd
      = (-1, selectNewPop kernelOne 1 [pC6a, pC6b] dummyInd,
          selectNewCand kernelOne 1 [pC6a, pC6b] dummyInd) := by
    unfold compute_fitness_and_select
    rw [if_pos hc1, if_neg hc2]
  have hsecond : (selectNewPop kernelOne 1 [pC6a, pC6b] dummyInd).getD 1 dummyInd
      = { pC6b with
          fitness := pC6b.fitness + kernelOne (calcIndicatorValue 1 pC6a pC6b)
            + kernelOne (calcIndicatorValue 1 dummyInd pC6b) } := by
    rw [selectNewPop_pair kernelOne 1 pC6a pC6b dummyInd hw]
    rfl
  refine ⟨?_, ?_, ?_⟩
  · rw [hres]
  · rw [hres]
    show ((selectNewPop kernelOne 1 [pC6a, pC6b] dummyInd).getD 1 dummyInd).fitness = (5 : ℚ)
    rw [hsecond]
    show pC6b.fitness + kernelOne (calcIndicatorValue 1 pC6a pC6b)
      + kernelOne (calcIndicatorValue 1 dummyInd pC6b) = (5 : ℚ)
    rw [hpb]
    norm_num [kernelOne]
  · rw [show ([pC6a, pC6b] : List Ind).getD 1 dummyInd = pC6b from rfl, hpb]

/-- **C6 (amended).** Whenever the candidate's freshly computed fitness does
not exceed the worst member's stored fitness, `compute_fitness_and_select`
returns `-1` and leaves the population untouched; but when the candidate beats
the worst by a margin in `(0, smallValue]`, it replaces the worst and updates
every fitness while still returning `-1`. -/
theorem select_reject_when_not_exceeding (E : ℚ → ℚ) (nf : ℕ) (SP : List Ind) (x : Ind)
    (h : selectFitness E nf SP x ≤ (worstOf SP).2) :
    (compute_fitness_and_select E nf SP x).1 = -1 ∧
      (compute_fitness_and_select E nf SP x).2.1 = SP := by
  unfold compute_fitness_and_select
  rw [if_neg (not_lt.mpr h)]
  exact ⟨rfl, rfl⟩

/-- Population member with stored fitness 5, used by the rejection witness. -/
def pC6c : Ind := { dummyInd with fitness := 5 }

theorem select_reject_when_not_exceeding_witness :
    selectFitness kernelOne 1 [pC6b, pC6c] dummyInd ≤ (worstOf [pC6b, pC6c]).2 ∧
      (compute_fitness_and_select kernelOne 1 [pC6b, pC6c] dummyInd).2.1 = [pC6b, pC6c] := by
  have hw : worstOf [pC6b, pC6c] = (0, pC6b.fitness) := by
    apply worstOf_pair
    show ¬((5 : ℚ) < 3)
    norm_num
  have hle : selectFitness kernelOne 1 [pC6b, pC6c] dummyInd ≤ (worstOf [pC6b, pC6c]).2 := by
    rw [selectFitness_pair, hw]
    show kernelOne (calcIndicatorValue 1 pC6b dummyInd)
      + kernelOne (calcIndicatorValue 1 pC6c dummyInd) ≤ pC6b.fitness
    show kernelOne (calcIndicatorValue 1 pC6b dummyInd)
      + kernelOne (calcIndicatorValue 1 pC6c dummyInd) ≤ (3 : ℚ)
    norm_num [kernelOne]
  exact ⟨hle, (select_reject_when_not_exceeding kernelOne 1 [pC6b, pC6c] dummyInd hle).2⟩

/-- Consistently seeded member: its stored fitness 2 equals its fitness
against `[y7a, y7b]`, since all scalarized vectors are 0 and `exp(0) = 1`. -/
def y7a : Ind := { dummyInd with fitness := 2 }

/-- Second consistently seeded member, identical to `y7a`. -/
def y7b : Ind := { dummyInd with fitness := 2 }

/-- Candidate whose scalarized vector `-1` is worse than the members', giving
it a large kernel fitness and forcing the accept branch. -/
def x7 : Ind := { dummyInd with v := fun _ => -1 }

/-- **C7.** At a consistently seeded two-member population, an accepted
candidate leaves the surviving member's stored fitness exactly 2 kernel units
above the value full recomputation (`compute_ind_fitness` against the updated
population) yields: `delete_fitness` performs `fitness += exp(-I/kappa)`, so
the evicted worst's contribution is added a second time instead of removed.
The hypotheses on the abstract kernel `E` hold for `exp(-I/kappa)` with
`kappa = 0.05`: `E 0 = exp(0) = 1` and `E (-1) = exp(20) > 2 + smallValue`. -/
theorem delete_fitness_double_counts (E : ℚ → ℚ) (h0 : E 0 = 1)
    (hm : 2 + smallValue < E (-1)) :
    (compute_fitness_and_select E 1 [y7a, y7b] x7).1 = 0 ∧
      ((compute_fitness_and_select E 1 [y7a, y7b] x7).2.1.getD 1 dummyInd).fitness
        = (compute_ind_fitness E 1
            ((compute_fitness_and_select E 1 [y7a, y7b] x7).2.1.getD 1 dummyInd)
            ((compute_fitness_and_select E 1 [y7a, y7b] x7).2.1)).fitness + 2 := by
  have hsmall : (0 : ℚ) < smallValue := by norm_num [smallValue]
  have hya : y7a.fitness = 2 := rfl
  have hyb : y7b.fitness = 2 := rfl
  have hvb : y7b.v 0 = 0 := rfl
  have hva : y7a.v 0 = 0 := rfl
  have hvx : x7.v 0 = -1 := rfl
  have hIax : calcIndicatorValue 1 y7a x7 = -1 := by
    rw [calcIndicatorValue_one, hvx, hva]
    norm_num
  have hIbx : calcIndicatorValue 1 y7b x7 = -1 := by
    rw [calcIndicatorValue_one, hvx, hvb]
    norm_num
  have hIab : calcIndicatorValue 1 y7a y7b = 0 := by
    rw [calcIndicatorValue_one, hvb, hva]
    norm_num
  have hIxb : calcIndicatorValue 1 x7 y7b = 1 := by
    rw [calcIndicatorValue_one, hvb, hvx]
    norm_num
  have hworst : worstOf [y7a, y7b] = (0, y7a.fitness) := by
    apply worstOf_pair
    rw [hya, hyb]
    norm_num
  have hfit : selectFitness E 1 [y7a, y7b] x7 = E (-1) + E (-1) := by
    rw [selectFitness_pair, hIax, hIbx]
  have hcond1 : (worstOf [y7a, y7b]).2 < selectFitness E 1 [y7a, y7b] x7 := by
    rw [hworst, hfit]
    show y7a.fitness < E (-1) + E (-1)
    rw [hya]
    linarith
  have hcond2 : smallValue < selectFitness E 1 [y7a, y7b] x7 - (worstOf [y7a, y7b]).2 := by
    rw [hworst, hfit]
    show smallValue < E (-1) + E (-1) - y7a.fitness
    rw [hya]
    linarith
  have hres : compute_fitness_and_select E 1 [y7a, y7b] x7
      = (((worstOf [y7a, y7b]).1 : ℤ), selectNewPop E 1 [y7a, y7b] x7,
          selectNewCand E 1 [y7a, y7b] x7) := by
    unfold compute_fitness_and_select
    rw [if_pos hcond1, if_pos hcond2]
  have hpop := selectNewPop_pair E 1 y7a y7b x7 hworst
  have hsecond : (selectNewPop E 1 [y7a, y7b] x7).getD 1 dummyInd
      = { y7b with
          fitness := y7b.fitness + E (calcIndicatorValue 1 y7a y7b)
            + E (calcIndicatorValue 1 x7 y7b) } := by
    rw [hpop]
    rfl
  constructor
  · rw [hres, hworst]
    rfl
  · rw [hres]
    show ((selectNewPop E 1 [y7a, y7b] x7).getD 1 dummyInd).fitness
      = (compute_ind_fitness E 1 ((selectNewPop E 1 [y7a, y7b] x7).getD 1 dummyInd)
          (selectNewPop E 1 [y7a, y7b] x7)).fitness + 2
    rw [hsecond, hpop]
    unfold compute_ind_fitness
    simp only [calcIndicatorValue_one, List.foldl_cons, List.foldl_nil, selectNewCand]
    rw [hvb, hva, hvx, hyb]
    norm_num [h0]
    ring

/-- A concrete kernel satisfying the two hypotheses of
`delete_fitness_double_counts` (`exp(0) = 1`, large value at `-1`). -/
def kernel7 : ℚ → ℚ := fun q => if q = 0 then 1 else 3

theorem delete_fitness_double_counts_witness :
    kernel7 0 = 1 ∧ 2 + smallValue < kernel7 (-1) ∧
      (compute_fitness_and_select kernel7 1 [y7a, y7b] x7).1 = 0 :=
  ⟨by norm_num [kernel7], by norm_num [kernel7, smallValue],
   (delete_fitness_double_counts kernel7 (by norm_num [kernel7])
      (by norm_num [kernel7, smallValue])).1⟩

/-- Cursor-and-vector state of the weight cycling component: the global
`nextLn` cursor and `vector_weight`. -/
structure WeightState where
  nextLn : ℕ
  vector_weight : ℕ → ℚ

/-- `dynamic_weight_allpop` from `mokp_core.c` lines 321-333: copy row
`nextLn` of the weight table into `vector_weight` (entries below `dim`), then
advance the cursor, resetting it to 0 only when it already equals `n`
(`nombreLIGNE`, the number of parsed rows). -/
def dynamic_weight_allpop (dim n : ℕ) (W : ℕ → ℕ → ℚ) (s : WeightState) : WeightState :=
  { vector_weight := fun i => if i < dim then W i s.nextLn else s.vector_weight i,
    nextLn := if s.nextLn = n then 0 else s.nextLn + 1 }

/-- A one-row weight table: row 0 (the only parsed row) holds 5; row 1 was
never parsed and holds the zero-initialized global value 0. -/
def W8 : ℕ → ℕ → ℚ := fun _ r => if r = 0 then 5 else 0

/-- **C8.** For a table of `n = 1` rows, the call consuming row `n - 1 = 0`
advances the cursor to 1, not 0, so the immediately following call copies the
never-parsed row 1 (zero-initialized) instead of wrapping to row 0: the
cursor resets only after overshooting to row `n`. -/
theorem weight_cursor_overshoots_table :
    (dynamic_weight_allpop 1 1 W8 ⟨0, fun _ => 0⟩).nextLn = 1 ∧
      (dynamic_weight_allpop 1 1 W8
        (dynamic_weight_allpop 1 1 W8 ⟨0, fun _ => 0⟩)).vector_weight 0 = W8 0 1 ∧
      W8 0 1 = 0 ∧ W8 0 0 = 5 :=
  ⟨rfl, rfl, rfl, rfl⟩

/-- The rejection-sampling do-while of `Indicator_local_search1`
(`mokp_core.c` lines 518-520): `do { mino = irand(NBITEMS); } while
(x->Items[mino] == 0);`, drawing from the pseudorandom stream until the exit
condition holds, modelled with explicit fuel.  `stream k` is the k-th value
the generator returns (modelled from the spec contract `nextInRange(n) ->
int in [0, n)`, which fixes only the range of the values). -/
def drawLoop (stream : ℕ → ℕ) (ok : ℕ → Bool) : ℕ → ℕ → Option ℕ
  | _, 0 => none
  | k, fuel + 1 =>
    if ok (stream k) then some (stream k) else drawLoop stream ok (k + 1) fuel

/-- The rejection-sampling loop terminates: some fuel bound suffices. -/
def drawLoopTerminates (stream : ℕ → ℕ) (ok : ℕ → Bool) : Prop :=
  ∃ fuel : ℕ, (drawLoop stream ok 0 fuel).isSome = true

/-- The rejection-sampling loop runs forever: no fuel bound suffices. -/
def drawLoopStuck (stream : ℕ → ℕ) (ok : ℕ → Bool) : Prop :=
  ∀ fuel : ℕ, drawLoop stream ok 0 fuel = none

/-- A mid-search individual in which item 1 is included and item 0 is not. -/
def x9 : Ind :=
  { dummyInd with Items := fun t => if t = 1 then 1 else 0, nombr := 1 }

/-- **C9 (counterexample).** Under the spec's contract for the pseudorandom
generator (values in `[0, NBITEMS)` and nothing more), a generator constantly
returning 0 satisfies the interface, yet the removal draw of
`Indicator_local_search1` — exit on a currently included item — never
terminates on an individual whose item 0 is excluded while item 1 is
included. -/
theorem drawLoop_diverges_on_constant_stream :
    x9.Items 1 = 1 ∧ drawLoopStuck (fun _ => 0) (fun m => decide (x9.Items m ≠ 0)) := by
  refine ⟨rfl, ?_⟩
  have hgen : ∀ (fuel k : ℕ),
      drawLoop (fun _ => 0) (fun m => decide (x9.Items m ≠ 0)) k fuel = none := by
    intro fuel
    induction fuel with
    | zero => intro k; rfl
    | succ n ih =>
      intro k
      have hok : (fun m : ℕ => decide (x9.Items m ≠ 0)) ((fun _ : ℕ => 0) k) = false := by
        simp [x9, dummyInd]
      simp only [drawLoop, hok, if_false, Bool.false_eq_true]
      exact ih (k + 1)
  exact fun fuel => hgen fuel 0

lemma drawLoop_isSome_iff (stream : ℕ → ℕ) (ok : ℕ → Bool) :
    ∀ (fuel start : ℕ),
      (drawLoop stream ok start fuel).isSome = true ↔
        ∃ j : ℕ, j < fuel ∧ ok (stream (start + j)) = true := by
  intro fuel
  induction fuel with
  | zero =>
    intro start
    simp [drawLoop]
  | succ n ih =>
    intro start
    by_cases hok : ok (stream start) = true
    · simp only [drawLoop, hok, if_true, Option.isSome_some, true_iff]
      exact ⟨0, Nat.succ_pos n, by simpa using hok⟩
    · have hok' : ok (stream start) = false := by
        cases h : ok (stream start)
        · rfl
        · exact absurd h hok
      rw [show drawLoop stream ok start (n + 1) = drawLoop stream ok (start + 1) n by
        simp [drawLoop, hok']]
      rw [ih (start + 1)]
      constructor
      · rintro ⟨j, hj, hokj⟩
        refine ⟨j + 1, by omega, ?_⟩
        rw [show start + (j + 1) = start + 1 + j by omega]
        exact hokj
      · rintro ⟨j, hj, hokj⟩
        cases j with
        | zero =>
          rw [Nat.add_zero] at hokj
          exact absurd hokj hok
        | succ m =>
          refine ⟨m, by omega, ?_⟩
          rw [show start + 1 + m = start + (m + 1) by omega]
          exact hokj

/-- **C9 (amended).** The rejection-sampling draw terminates exactly when the
pseudorandom stream eventually produces a value satisfying the exit condition
(an included item for the removal draw, an excluded one for the insertion
draw); termination for every generator meeting the spec's interface does not
hold. -/
theorem drawLoop_terminates_iff_eventually_hit (stream : ℕ → ℕ) (ok : ℕ → Bool) :
    drawLoopTerminates stream ok ↔ ∃ k : ℕ, ok (stream k) = true := by
  unfold drawLoopTerminates
  constructor
  · rintro ⟨fuel, hf⟩
    obtain ⟨j, _, hok⟩ := (drawLoop_isSome_iff stream ok fuel 0).mp hf
    exact ⟨j, by simpa using hok⟩
  · rintro ⟨k, hk⟩
    exact ⟨k + 1, (drawLoop_isSome_iff stream ok (k + 1) 0).mpr
      ⟨k, Nat.lt_succ_self k, by simpa using hk⟩⟩

/-- Per-removal-step local-search state inside `Indicator_local_search1`: the
trial individual `x`, the per-step exclusion array `remplace`
(zero-initialized at the start of each removal step) and its fill count
`taille`. -/
structure LsState where
  x : Ind
  remplace : ℕ → ℕ
  taille : ℕ

/-- The already-attempted do-while of the insertion attempt (`mokp_core.c`
lines 550-555): `feasible = 1; r = 0; do { if (maxp == remplace[r])
feasible = 0; r++; } while ((r < taille) && (feasible));`.  The body runs once
unconditionally at `r = 0` even when `taille == 0`, and the loop mutates
nothing it tests, so its final value is the conjunction of the forced `r = 0`
check with the checks for `r < taille`. -/
def feasibleRemplace (remplace : ℕ → ℕ) (taille maxp : ℕ) : Bool :=
  !(decide (maxp = remplace 0) || decide (∃ r : ℕ, r < taille ∧ maxp = remplace r))

/-- One insertion attempt of a removal step (`mokp_core.c` lines 539-571):
skip when the drawn candidate equals the removed item `mino`; otherwise check
capacity feasibility (`consistant`, the same do-while shape as in `evaluate`),
then the per-step exclusion list; on success record the candidate in
`remplace`, include it and update counters and accumulators. -/
def insertionAttempt (pb : Problem) (mino maxp : ℕ) (s : LsState) : LsState :=
  if maxp ≠ mino then
    if itemFeasible pb s.x.capa maxp then
      if feasibleRemplace s.remplace s.taille maxp then
        { x := { s.x with
            Items := Function.update s.x.Items maxp 1,
            nombr_nonpris := s.x.nombr_nonpris - 1,
            nombr := s.x.nombr + 1,
            capa := fun r => if r < pb.nf then s.x.capa r + (pb.weights r maxp : ℚ)
              else s.x.capa r,
            f := fun r => if r < pb.nf then s.x.f r + (pb.profits r maxp : ℚ)
              else s.x.f r },
          remplace := Function.update s.remplace s.taille maxp,
          taille := s.taille + 1 }
      else s
    else s
  else s

/-- **C10.** At the start of a removal step (`remplace` zero-initialized,
`taille = 0`), a drawn candidate `maxp = 0` is classified as already attempted
by the do-while — which compares against `remplace[0] = 0` even though the
exclusion list is empty — so item 0 is never tentatively inserted as the first
insertion of a step, regardless of its capacity feasibility, of the removed
item `mino`, or of the random draws. -/
theorem item_zero_not_first_insertion (pb : Problem) (mino : ℕ) (s : LsState)
    (ht : s.taille = 0) (h0 : s.remplace 0 = 0) :
    feasibleRemplace s.remplace s.taille 0 = false ∧ insertionAttempt pb mino 0 s = s := by
  have hfr : feasibleRemplace s.remplace s.taille 0 = false := by
    unfold feasibleRemplace
    rw [h0]
    simp
  refine ⟨hfr, ?_⟩
  unfold insertionAttempt
  by_cases hm : (0 : ℕ) ≠ mino
  · rw [if_pos hm]
    by_cases hf : itemFeasible pb s.x.capa 0 = true
    · rw [if_pos hf, hfr]
      simp
    · rw [if_neg hf]
  · rw [if_neg hm]

/-- Freshly started removal step on a blank individual. -/
def s10 : LsState := { x := dummyInd, remplace := fun _ => 0, taille := 0 }

theorem item_zero_not_first_insertion_witness :
    s10.taille = 0 ∧ s10.remplace 0 = 0 ∧ insertionAttempt pb0 1 0 s10 = s10 :=
  ⟨rfl, rfl, (item_zero_not_first_insertion pb0 1 s10 rfl rfl).2⟩
